import Mathlib

/-
Verification development for the phoneme alignment and normalization engine
of this repository (src/ml/src/ipa/normalizer.py and src/ml/src/ipa/aligner.py).

Python strings are modelled as `List Char`; a phoneme token is a `List Char`;
a token sequence is a `List (List Char)`.  Python's `str.replace` is modelled
by `replaceSub`, `str.split()` / `' '.join` by `pyWords` / `List.intercalate`,
and the `unicodedata` library calls are modelled by explicit tables restricted
to the characters that actually occur in this development (see the doc
comments of `ccc`, `decompChar` and `composePair`).
-/

namespace IpaEngine

/-! ### Character constants of normalizer.py -/

/-- Combining double inverted breve U+0361, `IPANormalizer.TIE_BAR`. -/
def tieBar : Char := Char.ofNat 0x361

/-- Combining acute accent U+0301. -/
def acuteMark : Char := Char.ofNat 0x301

/-- Combining dental mark (bridge below) U+032A. -/
def dentalMark : Char := Char.ofNat 0x32A

/-- IPA voiced velar stop glyph U+0261 (the key of the first `CHAR_MAPPINGS` entry). -/
def ipaG : Char := Char.ofNat 0x261

/-- Latin small letter g with acute U+01F5, the NFC composition of `g` + U+0301. -/
def gAcute : Char := Char.ofNat 0x1F5

/-- IPA length mark U+02D0. -/
def lenMark : Char := Char.ofNat 0x2D0

/-- IPA half-length mark U+02D1. -/
def halfLen : Char := Char.ofNat 0x2D1

/-- Primary stress marker U+02C8. -/
def stressP : Char := Char.ofNat 0x2C8

/-- Secondary stress marker U+02CC. -/
def stressS : Char := Char.ofNat 0x2CC

/-- R-colored schwa U+025A. -/
def rSchwa : Char := Char.ofNat 0x25A

/-- R-colored open-mid central vowel U+025D. -/
def rOpenMid : Char := Char.ofNat 0x25D

/-- Schwa U+0259. -/
def schwa : Char := Char.ofNat 0x259

/-- Open-mid central unrounded vowel U+025C. -/
def openMidC : Char := Char.ofNat 0x25C

/-- IPA alveolar approximant U+0279. -/
def turnedR : Char := Char.ofNat 0x279

/-! ### Model of the unicodedata library calls

The source calls `unicodedata.normalize('NFC', s)` and `unicodedata.combining(c)`.
These are modelled faithfully for the characters that occur anywhere in this
development: combining marks are drawn from the block U+0300..U+036F (the block
`IPANormalizer.COMBINING_MARKS` enumerates U+0300..U+0362 of it), and the only
canonical decompositions/compositions that can fire on the engine's alphabet
are `g/a/e + U+0301`.  Outside this restricted domain the model treats
characters as NFC-inert starters, exactly as real NFC treats every character
the engine's inputs use. -/

/-- Canonical combining class of Unicode 15 for the block U+0300..U+036F
(`unicodedata.combining`); characters outside the block are modelled with
class 0. -/
def ccc (c : Char) : Nat :=
  let n := c.toNat
  if n < 0x300 then 0
  else if 0x36F < n then 0
  else if n ≤ 0x314 then 230
  else if n = 0x315 then 232
  else if n ≤ 0x319 then 220
  else if n = 0x31A then 232
  else if n = 0x31B then 216
  else if n ≤ 0x320 then 220
  else if n ≤ 0x322 then 202
  else if n ≤ 0x326 then 220
  else if n ≤ 0x328 then 202
  else if n ≤ 0x333 then 220
  else if n ≤ 0x338 then 1
  else if n ≤ 0x33C then 220
  else if n ≤ 0x344 then 230
  else if n = 0x345 then 240
  else if n = 0x346 then 230
  else if n ≤ 0x349 then 220
  else if n ≤ 0x34C then 230
  else if n ≤ 0x34E then 220
  else if n = 0x34F then 0
  else if n ≤ 0x352 then 230
  else if n ≤ 0x356 then 220
  else if n = 0x357 then 230
  else if n = 0x358 then 232
  else if n ≤ 0x35A then 220
  else if n = 0x35B then 230
  else if n = 0x35C then 233
  else if n ≤ 0x35E then 234
  else if n = 0x35F then 233
  else if n ≤ 0x361 then 234
  else if n = 0x362 then 233
  else 230

/-- Canonical (NFD) decomposition table restricted to the precomposed
characters reachable by this engine: g/a/e with acute.  Every other character
is its own decomposition. -/
def decompChar (c : Char) : List Char :=
  if c = gAcute then ['g', acuteMark]
  else if c = Char.ofNat 0xE1 then ['a', acuteMark]
  else if c = Char.ofNat 0xE9 then ['e', acuteMark]
  else [c]

/-- Canonical ordering insertion: a combining mark moves left past marks of
strictly greater combining class; starters (class 0) never move and block
movement.  This is the Unicode canonical ordering algorithm. -/
def ordIns (acc : List Char) (c : Char) : List Char :=
  if ccc c = 0 then acc ++ [c]
  else
    let r := acc.reverse
    (r.dropWhile (fun a => ccc c < ccc a)).reverse ++ [c]
      ++ (r.takeWhile (fun a => ccc c < ccc a)).reverse

/-- Canonical reordering of a character list. -/
def canonOrder (s : List Char) : List Char := s.foldl ordIns []

/-- Canonical composition pair table restricted to the pairs reachable by
this engine (per UnicodeData: 01F5 = 0067 0301, 00E1 = 0061 0301,
00E9 = 0065 0301; no composition exists for U+0261 + U+0301). -/
def composePair (a c : Char) : Option Char :=
  if a = 'g' && c = acuteMark then some gAcute
  else if a = 'a' && c = acuteMark then some (Char.ofNat 0xE1)
  else if a = 'e' && c = acuteMark then some (Char.ofNat 0xE9)
  else none

/-- Canonical composition step: compose the incoming character with the
immediately preceding character when the pair table allows it.  The engine's
inputs never contain blocked or multi-mark clusters, for which full NFC would
look further back than one character. -/
def composeStep (acc : List Char) (c : Char) : List Char :=
  match acc.getLast? with
  | some a =>
    match composePair a c with
    | some z => acc.dropLast ++ [z]
    | none => acc ++ [c]
  | none => [c]

/-- Canonical composition of a character list. -/
def canonCompose (s : List Char) : List Char := s.foldl composeStep []

/-- Model of `unicodedata.normalize('NFC', s)`: canonical decomposition,
canonical reordering, then canonical composition. -/
def nfc (s : List Char) : List Char :=
  canonCompose (canonOrder ((s.map decompChar).flatten))

/-! ### Python str.replace, str.split and str.isspace -/

/-- Fuel-driven worker for `replaceSub`; the fuel is the length of the
remaining string, so it never runs out. -/
def replaceGo (pat rep : List Char) : Nat → List Char → List Char
  | 0, s => s
  | _ + 1, [] => []
  | fuel + 1, c :: rest =>
    if pat.isPrefixOf (c :: rest) then
      rep ++ replaceGo pat rep fuel (rest.drop (pat.length - 1))
    else
      c :: replaceGo pat rep fuel rest

/-- Model of Python `s.replace(pat, rep)`: replace every non-overlapping
occurrence of `pat`, scanning left to right.  (Python's behaviour for an
empty pattern is never exercised by the source: every pattern it passes is
non-empty.) -/
def replaceSub (pat rep s : List Char) : List Char :=
  if pat = [] then s else replaceGo pat rep s.length s

/-- Model of Python `str.isspace` on a single character (the Unicode
whitespace set). -/
def pyIsSpace (c : Char) : Bool :=
  let n := c.toNat
  (0x9 ≤ n && n ≤ 0xD) || n == 0x20 || (0x1C ≤ n && n ≤ 0x1F) || n == 0x85 ||
    n == 0xA0 || n == 0x1680 || (0x2000 ≤ n && n ≤ 0x200A) || n == 0x2028 ||
    n == 0x2029 || n == 0x202F || n == 0x205F || n == 0x3000

/-- Worker for `pyWords`: split on runs of whitespace, discarding empties;
the accumulator holds the current word reversed. -/
def wordsAux : List Char → List Char → List (List Char)
  | [], cur => if cur = [] then [] else [cur.reverse]
  | c :: rest, cur =>
    if pyIsSpace c then
      if cur = [] then wordsAux rest [] else cur.reverse :: wordsAux rest []
    else wordsAux rest (c :: cur)

/-- Model of Python `s.split()` (no separator argument). -/
def pyWords (s : List Char) : List (List Char) := wordsAux s []

/-! ### IPANormalizer.normalize

The claims all use the default configuration `keep_stress = true`,
`keep_length = true` (both the default constructor arguments and the
configuration `PhonemeAligner` installs), so steps 6 and 7 of the source,
which only run when a flag is false, are omitted. -/

/-- Prosodic/boundary markers `{'‖', '|', '‿'}` of `PROSODIC_MARKERS`. -/
def prosodicA : Char := Char.ofNat 0x2016

/-- Prosodic/boundary marker `|`. -/
def prosodicB : Char := '|'

/-- Prosodic/boundary marker `‿` U+203F. -/
def prosodicC : Char := Char.ofNat 0x203F

/-- The third key of `CHAR_MAPPINGS` as the Python parser actually reads it:
the two lines written as curly-apostrophe entries form one triple-quoted
string, so the runtime dictionary holds the 50-character key
`: "'",      # Curly apostrophe → straight\n        ` mapped to `'`.
This key can never occur in a phonetic input; it is carried along for
faithfulness to the runtime dictionary. -/
def oddKey : List Char :=
  [Char.ofNat 0x3A, Char.ofNat 0x20, Char.ofNat 0x22, Char.ofNat 0x27,
   Char.ofNat 0x22, Char.ofNat 0x2C, Char.ofNat 0x20, Char.ofNat 0x20,
   Char.ofNat 0x20, Char.ofNat 0x20, Char.ofNat 0x20, Char.ofNat 0x20,
   Char.ofNat 0x23, Char.ofNat 0x20, 'C', 'u', 'r', 'l', 'y',
   Char.ofNat 0x20, 'a', 'p', 'o', 's', 't', 'r', 'o', 'p', 'h', 'e',
   Char.ofNat 0x20, Char.ofNat 0x2192, Char.ofNat 0x20, 's', 't', 'r',
   'a', 'i', 'g', 'h', 't', Char.ofNat 0xA, Char.ofNat 0x20,
   Char.ofNat 0x20, Char.ofNat 0x20, Char.ofNat 0x20, Char.ofNat 0x20,
   Char.ofNat 0x20, Char.ofNat 0x20, Char.ofNat 0x20]

/-- Model of `IPANormalizer.normalize` with the default flags
(`keep_stress = true`, `keep_length = true`): NFC, tie-bar removal, prosodic
marker removal, character mappings, r-colored vowel expansion, whitespace
normalization. -/
def normalize (s : List Char) : List Char :=
  if s = [] then []
  else
    let r1 := nfc s
    let r2 := replaceSub [tieBar] [] r1
    let r3 := replaceSub [prosodicA] [] (replaceSub [prosodicB] []
      (replaceSub [prosodicC] [] r2))
    let r4 := replaceSub oddKey [Char.ofNat 0x27]
      (replaceSub [lenMark] [':'] (replaceSub [ipaG] ['g'] r3))
    let r5 := replaceSub [rOpenMid] [openMidC, turnedR]
      (replaceSub [rSchwa] [schwa, turnedR] r4)
    List.intercalate [' '] (pyWords r5)

/-! ### IPANormalizer.extract_phonemes -/

/-- Check `char in self.MODIFIER_LETTERS`: the nine IPA modifier letters of
`MODIFIER_LETTERS` (length, half-length, aspiration, labialization,
palatalization, velarization, pharyngealization, nasal/lateral release). -/
def isModifierLetter (c : Char) : Bool :=
  c == lenMark || c == halfLen || c == Char.ofNat 0x2B0 || c == Char.ofNat 0x2B7 ||
    c == Char.ofNat 0x2B2 || c == Char.ofNat 0x2E0 || c == Char.ofNat 0x2E4 ||
    c == Char.ofNat 0x207F || c == Char.ofNat 0x2E1

/-- Check `char in self.COMBINING_MARKS`: the source enumerates exactly the
characters U+0300..U+0362. -/
def inCombiningMarks (c : Char) : Bool :=
  0x300 ≤ c.toNat && c.toNat ≤ 0x362

/-- The `is_combining` test of `extract_phonemes`:
`unicodedata.combining(char) != 0 or char in COMBINING_MARKS or char in
MODIFIER_LETTERS`. -/
def isCombiningMod (c : Char) : Bool :=
  (ccc c != 0) || inCombiningMarks c || isModifierLetter c

/-- Check `char in self.STRESS_MARKERS`. -/
def isStressChar (c : Char) : Bool :=
  c == stressP || c == stressS

/-- Append the accumulator as a completed token when it is non-empty
(`if current_phoneme: phonemes.append(current_phoneme)`). -/
def flushTo (toks : List (List Char)) (cur : List Char) : List (List Char) :=
  if cur = [] then toks else toks ++ [cur]

/-- The two one-character strings of `STRESS_MARKERS`, for the membership test
`current_phoneme not in self.STRESS_MARKERS` on the accumulator. -/
def stressStrings : List (List Char) := [[stressP], [stressS]]

/-- The character loop of `extract_phonemes` (normalizer.py lines 155-192):
state is the list of completed tokens and the current accumulator. -/
def exLoop : List Char → List (List Char) → List Char → List (List Char)
  | [], toks, cur => flushTo toks cur
  | c :: rest, toks, cur =>
    if pyIsSpace c then exLoop rest (flushTo toks cur) []
    else if isCombiningMod c then exLoop rest toks (cur ++ [c])
    else if isStressChar c then exLoop rest (flushTo toks cur) [c]
    else if cur ≠ [] ∧ cur ∉ stressStrings then exLoop rest (toks ++ [cur]) [c]
    else exLoop rest toks (cur ++ [c])

/-- The tokenizer proper: the `extract_phonemes` loop run on an
already-normalized (canonical) string. -/
def extractTokens (s : List Char) : List (List Char) := exLoop s [] []

/-- Model of `IPANormalizer.extract_phonemes`: normalize, then tokenize. -/
def extract_phonemes (s : List Char) : List (List Char) :=
  let n := normalize s
  if n = [] then [] else extractTokens n

/-! ### PhonemeAligner.phoneme_similarity -/

/-- Model of `p.lstrip('ˈˌ')`: drop every leading stress marker. -/
def lstripStress (p : List Char) : List Char :=
  p.dropWhile (fun c => c == stressP || c == stressS)

/-- Model of `p.rstrip(':ː')`: drop every trailing length character. -/
def rstripLen (p : List Char) : List Char :=
  (p.reverse.dropWhile (fun c => c == ':' || c == lenMark)).reverse

/-- The `similar_pairs` table of `phoneme_similarity` (aligner.py lines
75-89), each Python string as a token. -/
def similarPairs : List (List Char × List Char) :=
  [(['p'], ['b']), (['t'], ['d']), (['k'], ['g']),
   (['f'], ['v']), (['s'], ['z']), (['θ'], ['ð']), (['ʃ'], ['ʒ']),
   (['m'], ['n']), (['n'], ['ŋ']),
   (['l'], [turnedR]), (['r'], [turnedR]), (['l'], ['r']),
   (['i'], ['ɪ']), (['u'], ['ʊ']), (['e'], ['ɛ']), (['o'], ['ɔ']),
   (['æ'], ['ɛ']), (['ɑ'], ['ɔ']), (['ʌ'], [schwa]),
   (['e', 'ɪ'], ['e']), (['a', 'ɪ'], ['a']), (['ɔ', 'ɪ'], ['ɔ']),
   (['o', 'ʊ'], ['o']), (['a', 'ʊ'], ['a'])]

/-- One iteration test of the `for pair in similar_pairs` loop:
`(p1_core in pair and p2_core in pair) or (p1_core == pair[0] and
p2_core == pair[1]) or (p1_core == pair[1] and p2_core == pair[0])`. -/
def pairHit (c1 c2 : List Char) (pr : List Char × List Char) : Bool :=
  ((c1 == pr.1 || c1 == pr.2) && (c2 == pr.1 || c2 == pr.2)) ||
    (c1 == pr.1 && c2 == pr.2) || (c1 == pr.2 && c2 == pr.1)

/-- Model of `PhonemeAligner.phoneme_similarity`.  The float tier values
0.0/0.5/0.8/1.0 are exactly representable, and the only comparisons made
against them are the exact threshold tests of `_needleman_wunsch`, so the
score is modelled in `ℚ`. -/
def phoneme_similarity (p1 p2 : List Char) : ℚ :=
  if p1 = p2 then 1
  else
    let b1 := lstripStress p1
    let b2 := lstripStress p2
    if b1 = b2 then mkRat 4 5
    else
      let c1 := rstripLen b1
      let c2 := rstripLen b2
      if c1 = c2 then mkRat 4 5
      else if similarPairs.any (pairHit c1 c2) then mkRat 1 2
      else 0

/-! ### PhonemeAligner._needleman_wunsch -/

/-- The per-cell score of the DP recurrence: `MATCH_SCORE = 2` when
similarity ≥ 0.8, `SIMILAR_SCORE = 1` when ≥ 0.5, else
`MISMATCH_PENALTY = -1`. -/
def scoreOf (p1 p2 : List Char) : Int :=
  if mkRat 4 5 ≤ phoneme_similarity p1 p2 then 2
  else if mkRat 1 2 ≤ phoneme_similarity p1 p2 then 1
  else -1

/-- Row i+1 of the DP table, built from row i (`prev`), the expected token
`xi` of that row, and the row's gap-initialized first entry `base`. -/
def nextRow (s2 : List (List Char)) (xi : List Char) (prev : Nat → Int)
    (base : Int) : Nat → Int
  | 0 => base
  | j + 1 =>
    max (max (prev j + scoreOf xi (s2.getD j []))
      (prev (j + 1) + (-2))) (nextRow s2 xi prev base j + (-2))

/-- The DP table `dp` of `_needleman_wunsch`: `dp[i][0] = i * GAP_PENALTY`,
`dp[0][j] = j * GAP_PENALTY`, and each inner cell is the maximum of the
diagonal, up (delete) and left (insert) transitions with
`GAP_PENALTY = -2`. -/
def dpT (s1 s2 : List (List Char)) : Nat → Nat → Int
  | 0 => fun j => -2 * (j : Int)
  | i + 1 => nextRow s2 (s1.getD i []) (dpT s1 s2 i) (-2 * ((i : Int) + 1))

/-- The gap placeholder `'-'` that `_needleman_wunsch` stores on the missing
side of a delete or insert operation. -/
def gapTok : List Char := ['-']

/-- The match type of a diagonal step: `'match'` when similarity ≥ 0.8,
else `'substitute'`. -/
def matchKind (p1 p2 : List Char) : String :=
  if mkRat 4 5 ≤ phoneme_similarity p1 p2 then "match" else "substitute"

/-- The traceback loop of `_needleman_wunsch` (aligner.py lines 177-222),
emitting operations in visiting order (the reverse of the returned order).
The fuel argument only forces termination; it is called with `i + j ≤ fuel`,
and every branch mirrors the source: diagonal when it reproduces the cell
value, else vertical (delete), else horizontal (insert), else the fallback
that emits a delete and an insert. -/
def tbGo (s1 s2 : List (List Char)) : Nat → Nat → Nat → List (List Char × List Char × String)
  | _, 0, 0 => []
  | fuel + 1, i + 1, j + 1 =>
    if dpT s1 s2 (i + 1) (j + 1) = dpT s1 s2 i j + scoreOf (s1.getD i []) (s2.getD j []) then
      (s1.getD i [], s2.getD j [], matchKind (s1.getD i []) (s2.getD j [])) :: tbGo s1 s2 fuel i j
    else if dpT s1 s2 (i + 1) (j + 1) = dpT s1 s2 i (j + 1) + (-2) then
      (s1.getD i [], gapTok, "delete") :: tbGo s1 s2 fuel i (j + 1)
    else if dpT s1 s2 (i + 1) (j + 1) = dpT s1 s2 (i + 1) j + (-2) then
      (gapTok, s2.getD j [], "insert") :: tbGo s1 s2 fuel (i + 1) j
    else
      (s1.getD i [], gapTok, "delete") :: (gapTok, s2.getD j [], "insert") :: tbGo s1 s2 fuel i j
  | fuel + 1, i + 1, 0 =>
    if dpT s1 s2 (i + 1) 0 = dpT s1 s2 i 0 + (-2) then
      (s1.getD i [], gapTok, "delete") :: tbGo s1 s2 fuel i 0
    else
      (s1.getD i [], gapTok, "delete") :: tbGo s1 s2 fuel i 0
  | fuel + 1, 0, j + 1 =>
    if dpT s1 s2 0 (j + 1) = dpT s1 s2 0 j + (-2) then
      (gapTok, s2.getD j [], "insert") :: tbGo s1 s2 fuel 0 j
    else
      (gapTok, s2.getD j [], "insert") :: tbGo s1 s2 fuel 0 j
  | 0, _, _ => []

/-- Model of `PhonemeAligner._needleman_wunsch(seq1, seq2)`: run the
traceback from `(m, n)` and reverse the collected operations. -/
def nwAlign (s1 s2 : List (List Char)) : List (List Char × List Char × String) :=
  (tbGo s1 s2 (s1.length + s2.length) s1.length s2.length).reverse

/-- Model of `PhonemeAligner.align(audio_ipa, text_ipa)`: tokenize both
strings and align with the text side as `seq1` (expected) and the audio side
as `seq2` (actual). -/
def align (audioIpa textIpa : List Char) : List (List Char × List Char × String) :=
  nwAlign (extract_phonemes textIpa) (extract_phonemes audioIpa)

/-- The expected-side projection of an operation: the token consumed from
`seq1`, absent for an insert. -/
def expSide (op : List Char × List Char × String) : Option (List Char) :=
  if op.2.2 = "insert" then none else some op.1

/-- The actual-side projection of an operation: the token consumed from
`seq2`, absent for a delete. -/
def actSide (op : List Char × List Char × String) : Option (List Char) :=
  if op.2.2 = "delete" then none else some op.2.1

/-! ### Tokenizer lemmas -/

lemma flatten_flushTo (toks : List (List Char)) (cur : List Char) :
    (flushTo toks cur).flatten = toks.flatten ++ cur := by
  unfold flushTo
  split
  · simp_all
  · simp

lemma exLoop_flatten (s : List Char) : ∀ toks cur,
    (exLoop s toks cur).flatten =
      toks.flatten ++ cur ++ s.filter (fun c => !pyIsSpace c) := by
  induction s with
  | nil => intro toks cur; simp [exLoop, flatten_flushTo]
  | cons c rest ih =>
    intro toks cur
    simp only [exLoop]
    by_cases h1 : pyIsSpace c = true
    · rw [if_pos h1, ih, flatten_flushTo]
      simp [List.filter_cons, h1, List.append_assoc]
    · rw [if_neg h1]
      have hkeep : (!pyIsSpace c) = true := by simp_all
      by_cases h2 : isCombiningMod c = true
      · rw [if_pos h2, ih]
        simp [List.filter_cons, hkeep, List.append_assoc]
      · rw [if_neg h2]
        by_cases h3 : isStressChar c = true
        · rw [if_pos h3, ih, flatten_flushTo]
          simp [List.filter_cons, hkeep, List.append_assoc]
        · rw [if_neg h3]
          by_cases h4 : cur ≠ [] ∧ cur ∉ stressStrings
          · rw [if_pos h4, ih]
            simp [List.filter_cons, hkeep, List.append_assoc]
          · rw [if_neg h4, ih]
            simp [List.filter_cons, hkeep, List.append_assoc]

lemma mem_flushTo {toks : List (List Char)} {cur t : List Char}
    (h : t ∈ flushTo toks cur) : t ∈ toks ∨ t = cur := by
  unfold flushTo at h
  split at h
  · exact Or.inl h
  · rcases List.mem_append.mp h with h' | h'
    · exact Or.inl h'
    · exact Or.inr (List.mem_singleton.mp h')

lemma exLoop_chars (P : Char → Prop) (s : List Char) : ∀ toks cur,
    (∀ t ∈ toks, ∀ c ∈ t, P c) → (∀ c ∈ cur, P c) → (∀ c ∈ s, P c) →
    ∀ t ∈ exLoop s toks cur, ∀ c ∈ t, P c := by
  induction s with
  | nil =>
    intro toks cur htoks hcur _ t ht
    rcases mem_flushTo ht with h | h
    · exact htoks t h
    · exact h ▸ hcur
  | cons c rest ih =>
    intro toks cur htoks hcur hs t ht
    have hc : P c := hs c (List.mem_cons_self c rest)
    have hrest : ∀ x ∈ rest, P x := fun x hx => hs x (List.mem_cons_of_mem c hx)
    have hflush : ∀ u ∈ flushTo toks cur, ∀ x ∈ u, P x := by
      intro u hu
      rcases mem_flushTo hu with h | h
      · exact htoks u h
      · exact h ▸ hcur
    have hcurc : ∀ x ∈ cur ++ [c], P x := by
      intro x hx
      rcases List.mem_append.mp hx with h | h
      · exact hcur x h
      · exact (List.mem_singleton.mp h) ▸ hc
    simp only [exLoop] at ht
    by_cases h1 : pyIsSpace c = true
    · rw [if_pos h1] at ht
      exact ih (flushTo toks cur) [] hflush (by simp) hrest t ht
    · rw [if_neg h1] at ht
      by_cases h2 : isCombiningMod c = true
      · rw [if_pos h2] at ht
        exact ih toks (cur ++ [c]) htoks hcurc hrest t ht
      · rw [if_neg h2] at ht
        by_cases h3 : isStressChar c = true
        · rw [if_pos h3] at ht
          refine ih (flushTo toks cur) [c] hflush ?_ hrest t ht
          intro x hx
          exact (List.mem_singleton.mp hx) ▸ hc
        · rw [if_neg h3] at ht
          by_cases h4 : cur ≠ [] ∧ cur ∉ stressStrings
          · rw [if_pos h4] at ht
            refine ih (toks ++ [cur]) [c] ?_ ?_ hrest t ht
            · intro u hu
              rcases List.mem_append.mp hu with h | h
              · exact htoks u h
              · exact (List.mem_singleton.mp h) ▸ hcur
            · intro x hx
              exact (List.mem_singleton.mp hx) ▸ hc
          · rw [if_neg h4] at ht
            exact ih toks (cur ++ [c]) htoks hcurc hrest t ht

lemma ccc_range {c : Char} (h : ccc c ≠ 0) :
    0x300 ≤ c.toNat ∧ c.toNat ≤ 0x36F := by
  constructor
  · by_contra hlt
    apply h
    simp only [ccc]
    rw [if_pos (by omega)]
  · by_contra hgt
    apply h
    simp only [ccc]
    rw [if_neg (by omega), if_pos (by omega)]

lemma combiningMod_not_space {c : Char} (h : isCombiningMod c = true) :
    pyIsSpace c = false := by
  have h' : ccc c ≠ 0 ∨ inCombiningMarks c = true ∨ isModifierLetter c = true := by
    have := h
    simp only [isCombiningMod, Bool.or_eq_true, bne_iff_ne, ne_eq] at this
    tauto
  have hn : (0x300 ≤ c.toNat ∧ c.toNat ≤ 0x36F) ∨ isModifierLetter c = true := by
    rcases h' with h1 | h2 | h3
    · exact Or.inl (ccc_range h1)
    · simp only [inCombiningMarks, Bool.and_eq_true, decide_eq_true_eq] at h2
      exact Or.inl ⟨h2.1, by omega⟩
    · exact Or.inr h3
  rcases hn with ⟨ha, hb⟩ | hmod
  · simp only [pyIsSpace, Bool.or_eq_false_iff, Bool.and_eq_false_iff,
      decide_eq_false_iff_not, beq_eq_false_iff_ne, ne_eq]
    omega
  · simp only [isModifierLetter, Bool.or_eq_true, beq_iff_eq] at hmod
    rcases hmod with ((((((((h | h) | h) | h) | h) | h) | h) | h) | h) <;>
      rw [h] <;> decide

/-! ### Claims C6, C7, C8, C9 -/

/-- C8: Token round-trip — for every string fed to the tokenizer loop (every
canonical string), concatenating the characters of all produced tokens in
order reproduces that string with its whitespace characters removed. -/
theorem token_round_trip (s : List Char) :
    (extractTokens s).flatten = s.filter (fun c => !pyIsSpace c) := by
  have h := exLoop_flatten s [] []
  simpa [extractTokens] using h

lemma isPrefixOf_single (x c : Char) (l : List Char) :
    List.isPrefixOf [x] (c :: l) = (x == c) := by
  simp [List.isPrefixOf]

lemma not_mem_replaceGo_single (x : Char) (rep : List Char) (hx : x ∉ rep) :
    ∀ fuel s, s.length ≤ fuel → x ∉ replaceGo [x] rep fuel s := by
  intro fuel
  induction fuel with
  | zero =>
    intro s hs
    have hnil : s = [] := List.eq_nil_of_length_eq_zero (by omega)
    subst hnil
    simp [replaceGo]
  | succ fuel ih =>
    intro s hs
    match s with
    | [] => simp [replaceGo]
    | c :: rest =>
      simp only [replaceGo]
      split
      · intro hmem
        rcases List.mem_append.mp hmem with h | h
        · exact hx h
        · have hlen : (rest.drop ([x].length - 1)).length ≤ fuel := by
            rw [List.length_drop]
            simp only [List.length_cons] at hs
            omega
          exact ih _ hlen h
      · rename_i hcond
        intro hmem
        rcases List.mem_cons.mp hmem with h | h
        · rw [isPrefixOf_single] at hcond
          exact hcond (by simp [h])
        · have hlen : rest.length ≤ fuel := by
            simp only [List.length_cons] at hs
            omega
          exact ih rest hlen h

lemma mem_replaceGo (pat rep : List Char) (y : Char) :
    ∀ fuel s, y ∈ replaceGo pat rep fuel s → y ∈ rep ∨ y ∈ s := by
  intro fuel
  induction fuel with
  | zero => intro s h; exact Or.inr h
  | succ fuel ih =>
    intro s h
    match s with
    | [] => simp [replaceGo] at h
    | c :: rest =>
      simp only [replaceGo] at h
      split at h
      · rcases List.mem_append.mp h with h' | h'
        · exact Or.inl h'
        · rcases ih _ h' with h'' | h''
          · exact Or.inl h''
          · exact Or.inr (List.mem_cons_of_mem c (List.mem_of_mem_drop h''))
      · rcases List.mem_cons.mp h with h' | h'
        · exact Or.inr (h' ▸ List.mem_cons_self c rest)
        · rcases ih rest h' with h'' | h''
          · exact Or.inl h''
          · exact Or.inr (List.mem_cons_of_mem c h'')

lemma mem_replaceSub (pat rep s : List Char) (y : Char)
    (h : y ∈ replaceSub pat rep s) : y ∈ rep ∨ y ∈ s := by
  unfold replaceSub at h
  split at h
  · exact Or.inr h
  · exact mem_replaceGo pat rep y s.length s h

lemma not_mem_replaceSub_single (x : Char) (rep : List Char) (hx : x ∉ rep)
    (s : List Char) : x ∉ replaceSub [x] rep s := by
  unfold replaceSub
  rw [if_neg (by simp)]
  exact not_mem_replaceGo_single x rep hx s.length s le_rfl

lemma mem_wordsAux (y : Char) : ∀ s cur w, w ∈ wordsAux s cur → y ∈ w →
    y ∈ s ∨ y ∈ cur := by
  intro s
  induction s with
  | nil =>
    intro cur w hw hy
    unfold wordsAux at hw
    split at hw
    · exact absurd hw (List.not_mem_nil w)
    · right
      rw [List.mem_singleton.mp hw] at hy
      exact List.mem_reverse.mp hy
  | cons c rest ih =>
    intro cur w hw hy
    simp only [wordsAux] at hw
    split at hw
    · split at hw
      · rcases ih [] w hw hy with h | h
        · exact Or.inl (List.mem_cons_of_mem c h)
        · exact absurd h (List.not_mem_nil y)
      · rcases List.mem_cons.mp hw with h | h
        · right
          rw [h] at hy
          exact List.mem_reverse.mp hy
        · rcases ih [] w h hy with h' | h'
          · exact Or.inl (List.mem_cons_of_mem c h')
          · exact absurd h' (List.not_mem_nil y)
    · rcases ih (c :: cur) w hw hy with h | h
      · exact Or.inl (List.mem_cons_of_mem c h)
      · rcases List.mem_cons.mp h with h' | h'
        · exact Or.inl (h' ▸ List.mem_cons_self c rest)
        · exact Or.inr h'

lemma mem_intersperse_sep {α : Type} (sep : α) :
    ∀ (xs : List α) (w : α), w ∈ List.intersperse sep xs → w = sep ∨ w ∈ xs := by
  intro xs
  induction xs with
  | nil => intro w h; simp [List.intersperse] at h
  | cons a xs ih =>
    cases xs with
    | nil =>
      intro w h
      rw [List.intersperse_singleton] at h
      exact Or.inr h
    | cons b ys =>
      intro w h
      rw [List.intersperse_cons_cons] at h
      rcases List.mem_cons.mp h with h1 | h1
      · exact Or.inr (h1 ▸ List.mem_cons_self a (b :: ys))
      · rcases List.mem_cons.mp h1 with h2 | h2
        · exact Or.inl h2
        · rcases ih w h2 with h3 | h3
          · exact Or.inl h3
          · exact Or.inr (List.mem_cons_of_mem a h3)

/-- The length mark U+02D0 never occurs in the output of `normalize`: step 4
rewrites every occurrence to `:`, and no later step (the remaining
character mappings, the r-colored expansions, whitespace splitting and
rejoining) can introduce one. -/
lemma lenMark_not_mem_normalize (s : List Char) : lenMark ∉ normalize s := by
  unfold normalize
  split
  · simp
  · intro hmem
    simp only [List.intercalate] at hmem
    rw [List.mem_flatten] at hmem
    obtain ⟨w, hw, hyw⟩ := hmem
    rcases mem_intersperse_sep [' '] _ w hw with hsep | hwords
    · rw [hsep] at hyw
      exact absurd hyw (by decide)
    · rcases mem_wordsAux lenMark _ [] w hwords hyw with hin | hin
      · rcases mem_replaceSub _ _ _ _ hin with h | h
        · exact absurd h (by decide)
        rcases mem_replaceSub _ _ _ _ h with h | h
        · exact absurd h (by decide)
        rcases mem_replaceSub _ _ _ _ h with h | h
        · exact absurd h (by decide)
        · exact not_mem_replaceSub_single lenMark [':'] (by decide) _ h
      · exact absurd hin (List.not_mem_nil lenMark)

/-- C6 counterexample: through the real pipeline a length mark does not
attach to the preceding base symbol's token: `normalize` rewrites the length
mark U+02D0 to `:`, which the tokenizer treats as a base character, so
tokenizing `aː` yields the two tokens `a`, `:` rather than the single token
`aː`. -/
theorem length_mark_starts_own_token :
    normalize ['a', lenMark] = ['a', ':'] ∧
    extract_phonemes ['a', lenMark] = [['a'], [':']] ∧
    extract_phonemes ['a', lenMark] ≠ [['a', lenMark]] := by
  refine ⟨by decide, by decide, by decide⟩

/-- C6 amended: a character the tokenizer classifies as a combining mark or
an IPA modifier letter is appended to the current token accumulator and
never closes it or starts a fresh token, and modifiers that survive
normalization (such as the half-length mark U+02D1) therefore attach to the
preceding base symbol's token through the full pipeline; the length mark
U+02D0 itself, however, never occurs in a canonical string — `normalize`
rewrites it to `:`, which the tokenizer treats as a base symbol — so a
length mark in the raw input starts its own token instead of attaching. -/
theorem combining_modifier_extends_token :
    (∀ (rest : List Char) (toks : List (List Char)) (cur : List Char) (c : Char),
      isCombiningMod c = true →
      exLoop (c :: rest) toks cur = exLoop rest toks (cur ++ [c])) ∧
    (∀ s : List Char, lenMark ∉ normalize s) ∧
    extract_phonemes ['a', halfLen] = [['a', halfLen]] := by
  refine ⟨?_, lenMark_not_mem_normalize, by decide⟩
  intro rest toks cur c hc
  have hs : ¬ pyIsSpace c = true := by
    simp [combiningMod_not_space hc]
  simp only [exLoop]
  rw [if_neg hs, if_pos hc]

/-- C6 amended, witness instance: the half-length mark U+02D1 extends the
accumulator holding `a` without flushing it, and the length mark U+02D0 is
absent from the canonical form of `aː`. -/
theorem combining_modifier_extends_token_witness :
    isCombiningMod halfLen = true ∧
    exLoop [halfLen] [] ['a'] = exLoop [] [] (['a'] ++ [halfLen]) ∧
    lenMark ∉ normalize ['a', lenMark] :=
  ⟨by decide, combining_modifier_extends_token.1 [] [] ['a'] halfLen (by decide),
    combining_modifier_extends_token.2.1 ['a', lenMark]⟩

/-- C7: a stress marker closes the current accumulator (flushing it as a
token when non-empty) and becomes the start of the next token; a following
base symbol is appended to the pending stress marker rather than flushing
it; and tokenizing `ˈhɛloʊ` yields the first token `ˈh`, not a standalone
stress token. -/
theorem stress_binds_forward :
    (∀ (rest : List Char) (toks : List (List Char)) (cur : List Char) (c : Char),
      isStressChar c = true →
      exLoop (c :: rest) toks cur = exLoop rest (flushTo toks cur) [c]) ∧
    (∀ (rest : List Char) (toks : List (List Char)) (c b : Char),
      isStressChar c = true → pyIsSpace b = false → isCombiningMod b = false →
      isStressChar b = false →
      exLoop (b :: rest) toks [c] = exLoop rest toks [c, b]) ∧
    (extract_phonemes [stressP, 'h', 'ɛ', 'l', 'o', 'ʊ']).head? =
      some [stressP, 'h'] := by
  refine ⟨?_, ?_, by decide⟩
  · intro rest toks cur c hc
    have hc' : c = stressP ∨ c = stressS := by
      simpa [isStressChar, Bool.or_eq_true, beq_iff_eq] using hc
    rcases hc' with h | h <;> rw [h] <;> simp only [exLoop] <;>
      rw [if_neg (by decide), if_neg (by decide), if_pos (by decide)]
  · intro rest toks c b hc hb1 hb2 hb3
    have hc' : c = stressP ∨ c = stressS := by
      simpa [isStressChar, Bool.or_eq_true, beq_iff_eq] using hc
    rcases hc' with h | h <;> rw [h] <;> simp only [exLoop] <;>
      rw [if_neg (by simp [hb1]), if_neg (by simp [hb2]),
        if_neg (by simp [hb3]), if_neg (by simp [stressStrings])] <;> rfl

/-- C7 witness instance: the primary stress marker flushes the pending
accumulator and opens the next token, and `h` then joins the pending stress
marker. -/
theorem stress_binds_forward_witness :
    (isStressChar stressP = true ∧
      exLoop [stressP] [] ['x'] = exLoop [] (flushTo [] ['x']) [stressP]) ∧
    exLoop ['h'] [] [stressP] = exLoop [] [] [stressP, 'h'] :=
  ⟨⟨by decide, stress_binds_forward.1 [] [] ['x'] stressP (by decide)⟩,
    stress_binds_forward.2.1 [] [] stressP 'h' (by decide) (by decide)
      (by decide) (by decide)⟩

/-- C9 counterexample: the gap placeholder is the string `-`, and the
tokenizer produces exactly that token from the input `-`, both at the
tokenizer level and through the full normalize-then-tokenize pipeline — so
the placeholder is not distinguishable from every real token. -/
theorem gap_placeholder_collision :
    extractTokens ['-'] = [gapTok] ∧ extract_phonemes ['-'] = [gapTok] := by
  constructor <;> decide

/-- C9 amended: the placeholder `-` never collides with a token produced
from an input string that does not contain the character `-`. -/
theorem gap_placeholder_distinct (s : List Char) (h : '-' ∉ s) :
    ∀ t ∈ extractTokens s, t ≠ gapTok := by
  intro t ht hEq
  have hchars : ∀ c ∈ t, c ≠ '-' := by
    refine exLoop_chars (fun c => c ≠ '-') s [] [] (by simp) (by simp) ?_ t ht
    intro c hc hEq'
    exact h (hEq' ▸ hc)
  exact hchars '-' (by rw [hEq]; exact List.mem_singleton.mpr rfl) rfl

/-- C9 amended, witness instance: the token produced from `a` is not the
gap placeholder. -/
theorem gap_placeholder_distinct_witness :
    ('-' ∉ (['a'] : List Char)) ∧ (['a'] : List Char) ∈ extractTokens ['a'] ∧
      (['a'] : List Char) ≠ gapTok :=
  ⟨by decide, by decide, gap_placeholder_distinct ['a'] (by decide) ['a'] (by decide)⟩

/-! ### Needleman-Wunsch lemmas -/

lemma filterMap_rev {α β : Type} (f : α → Option β) (l : List α) :
    l.reverse.filterMap f = (l.filterMap f).reverse := by
  induction l with
  | nil => rfl
  | cons a l ih =>
    rw [List.reverse_cons, List.filterMap_append, ih, List.filterMap_cons]
    cases h : f a <;> simp [List.filterMap_cons, h]

lemma take_succ_rev {α : Type} (l : List α) (i : Nat) (h : i < l.length) (d : α) :
    (l.take (i + 1)).reverse = l.getD i d :: (l.take i).reverse := by
  induction l generalizing i with
  | nil => simp at h
  | cons a l ih =>
    cases i with
    | zero => simp
    | succ i =>
      have h' : i < l.length := by simpa using h
      simp [ih i h']

lemma matchKind_ne_insert (p q : List Char) : matchKind p q ≠ "insert" := by
  unfold matchKind; split <;> decide

lemma matchKind_ne_delete (p q : List Char) : matchKind p q ≠ "delete" := by
  unfold matchKind; split <;> decide

lemma expSide_diag (x y p q : List Char) :
    expSide (x, y, matchKind p q) = some x := by
  simp [expSide, matchKind_ne_insert p q]

lemma actSide_diag (x y p q : List Char) :
    actSide (x, y, matchKind p q) = some y := by
  simp [actSide, matchKind_ne_delete p q]

lemma expSide_del (x y : List Char) : expSide (x, y, "delete") = some x := by
  simp [expSide]

lemma actSide_del (x y : List Char) : actSide (x, y, "delete") = none := by
  simp [actSide]

lemma expSide_ins (x y : List Char) : expSide (x, y, "insert") = none := by
  simp [expSide]

lemma actSide_ins (x y : List Char) : actSide (x, y, "insert") = some y := by
  simp [actSide]

lemma tbGo_fuel_zero (s1 s2 : List (List Char)) (i j : Nat) :
    tbGo s1 s2 0 i j = [] := by
  match i, j with
  | 0, 0 => rfl
  | i + 1, 0 => rfl
  | 0, j + 1 => rfl
  | i + 1, j + 1 => rfl

lemma tbGo_cover (s1 s2 : List (List Char)) : ∀ fuel i j, i + j ≤ fuel →
    i ≤ s1.length → j ≤ s2.length →
    (tbGo s1 s2 fuel i j).filterMap expSide = (s1.take i).reverse ∧
    (tbGo s1 s2 fuel i j).filterMap actSide = (s2.take j).reverse := by
  intro fuel
  induction fuel with
  | zero =>
    intro i j hij hi hj
    have hi0 : i = 0 := by omega
    have hj0 : j = 0 := by omega
    subst hi0; subst hj0
    simp [tbGo_fuel_zero]
  | succ fuel ih =>
    intro i j hij hi hj
    match i, j with
    | 0, 0 => simp [tbGo]
    | i + 1, j + 1 =>
      have hi' : i < s1.length := by omega
      have hj' : j < s2.length := by omega
      obtain ⟨ihe, iha⟩ := ih i j (by omega) (by omega) (by omega)
      obtain ⟨ihe2, iha2⟩ := ih i (j + 1) (by omega) (by omega) (by omega)
      obtain ⟨ihe3, iha3⟩ := ih (i + 1) j (by omega) (by omega) (by omega)
      simp only [tbGo]
      split_ifs with hd hu hl
      · constructor
        · rw [List.filterMap_cons, expSide_diag, ihe, take_succ_rev s1 i hi' []]
        · rw [List.filterMap_cons, actSide_diag, iha, take_succ_rev s2 j hj' []]
      · constructor
        · rw [List.filterMap_cons, expSide_del, ihe2, take_succ_rev s1 i hi' []]
        · rw [List.filterMap_cons, actSide_del, iha2]
      · constructor
        · rw [List.filterMap_cons, expSide_ins, ihe3]
        · rw [List.filterMap_cons, actSide_ins, iha3, take_succ_rev s2 j hj' []]
      · constructor
        · rw [List.filterMap_cons, expSide_del, List.filterMap_cons, expSide_ins,
            ihe, take_succ_rev s1 i hi' []]
        · rw [List.filterMap_cons, actSide_del, List.filterMap_cons, actSide_ins,
            iha, take_succ_rev s2 j hj' []]
    | i + 1, 0 =>
      have hi' : i < s1.length := by omega
      obtain ⟨ihe, iha⟩ := ih i 0 (by omega) (by omega) (by omega)
      simp only [tbGo, ite_self]
      constructor
      · rw [List.filterMap_cons, expSide_del, ihe, take_succ_rev s1 i hi' []]
      · rw [List.filterMap_cons, actSide_del, iha]
    | 0, j + 1 =>
      have hj' : j < s2.length := by omega
      obtain ⟨ihe, iha⟩ := ih 0 j (by omega) (by omega) (by omega)
      simp only [tbGo, ite_self]
      constructor
      · rw [List.filterMap_cons, expSide_ins, ihe]
      · rw [List.filterMap_cons, actSide_ins, iha, take_succ_rev s2 j hj' []]

lemma nwAlign_cover (s1 s2 : List (List Char)) :
    (nwAlign s1 s2).filterMap expSide = s1 ∧
    (nwAlign s1 s2).filterMap actSide = s2 := by
  obtain ⟨h1, h2⟩ := tbGo_cover s1 s2 (s1.length + s2.length) s1.length s2.length
    le_rfl le_rfl le_rfl
  constructor
  · rw [nwAlign, filterMap_rev, h1, List.take_length, List.reverse_reverse]
  · rw [nwAlign, filterMap_rev, h2, List.take_length, List.reverse_reverse]

lemma tbGo_shape (s1 s2 : List (List Char)) : ∀ fuel i j,
    ∀ op ∈ tbGo s1 s2 fuel i j,
      (op.2.2 = "delete" → op.2.1 = gapTok) ∧ (op.2.2 = "insert" → op.1 = gapTok) := by
  intro fuel
  induction fuel with
  | zero => intro i j op hop; rw [tbGo_fuel_zero] at hop; exact absurd hop (List.not_mem_nil op)
  | succ fuel ih =>
    intro i j op hop
    match i, j with
    | 0, 0 => exact absurd hop (List.not_mem_nil op)
    | i + 1, j + 1 =>
      simp only [tbGo] at hop
      split_ifs at hop with hd hu hl
      · rcases List.mem_cons.mp hop with h | h
        · subst h
          exact ⟨fun hk => absurd hk (matchKind_ne_delete _ _),
            fun hk => absurd hk (matchKind_ne_insert _ _)⟩
        · exact ih i j op h
      · rcases List.mem_cons.mp hop with h | h
        · subst h; exact ⟨fun _ => rfl, fun hk => absurd hk (by simp)⟩
        · exact ih i (j + 1) op h
      · rcases List.mem_cons.mp hop with h | h
        · subst h; exact ⟨fun hk => absurd hk (by simp), fun _ => rfl⟩
        · exact ih (i + 1) j op h
      · rcases List.mem_cons.mp hop with h | h
        · subst h; exact ⟨fun _ => rfl, fun hk => absurd hk (by simp)⟩
        · rcases List.mem_cons.mp h with h' | h'
          · subst h'; exact ⟨fun hk => absurd hk (by simp), fun _ => rfl⟩
          · exact ih i j op h'
    | i + 1, 0 =>
      simp only [tbGo, ite_self] at hop
      rcases List.mem_cons.mp hop with h | h
      · subst h; exact ⟨fun _ => rfl, fun hk => absurd hk (by simp)⟩
      · exact ih i 0 op h
    | 0, j + 1 =>
      simp only [tbGo, ite_self] at hop
      rcases List.mem_cons.mp hop with h | h
      · subst h; exact ⟨fun hk => absurd hk (by simp), fun _ => rfl⟩
      · exact ih 0 j op h

lemma dpT_zero_left (s1 s2 : List (List Char)) (j : Nat) :
    dpT s1 s2 0 j = -2 * (j : Int) := rfl

lemma dpT_succ_zero (s1 s2 : List (List Char)) (i : Nat) :
    dpT s1 s2 (i + 1) 0 = -2 * ((i : Int) + 1) := rfl

lemma dpT_succ_succ (s1 s2 : List (List Char)) (i j : Nat) :
    dpT s1 s2 (i + 1) (j + 1) =
      max (max (dpT s1 s2 i j + scoreOf (s1.getD i []) (s2.getD j []))
        (dpT s1 s2 i (j + 1) + (-2))) (dpT s1 s2 (i + 1) j + (-2)) := rfl

lemma scoreOf_le_two (p q : List Char) : scoreOf p q ≤ 2 := by
  unfold scoreOf; split_ifs <;> omega

lemma phoneme_similarity_self (p : List Char) : phoneme_similarity p p = 1 := by
  unfold phoneme_similarity; rw [if_pos rfl]

lemma scoreOf_self (p : List Char) : scoreOf p p = 2 := by
  unfold scoreOf
  rw [phoneme_similarity_self, if_pos (by norm_num)]

lemma matchKind_self (p : List Char) : matchKind p p = "match" := by
  unfold matchKind
  rw [phoneme_similarity_self, if_pos (by norm_num)]

lemma dpT_le (s1 s2 : List (List Char)) : ∀ i j,
    dpT s1 s2 i j ≤ 2 * (i : Int) ∧ dpT s1 s2 i j ≤ 2 * (j : Int) := by
  intro i
  induction i with
  | zero =>
    intro j
    rw [dpT_zero_left]
    constructor <;> push_cast <;> omega
  | succ i ih =>
    intro j
    induction j with
    | zero =>
      rw [dpT_succ_zero]
      constructor <;> push_cast <;> omega
    | succ j ihj =>
      rw [dpT_succ_succ]
      obtain ⟨h1a, h1b⟩ := ih j
      obtain ⟨h2a, h2b⟩ := ih (j + 1)
      obtain ⟨h3a, h3b⟩ := ihj
      have hs := scoreOf_le_two (s1.getD i []) (s2.getD j [])
      push_cast at h1a h1b h2a h2b h3a h3b ⊢
      constructor <;> refine max_le (max_le ?_ ?_) ?_ <;> omega

lemma dpT_diag (x : List (List Char)) : ∀ i, dpT x x i i = 2 * (i : Int) := by
  intro i
  induction i with
  | zero => rw [dpT_zero_left]; ring
  | succ i ih =>
    rw [dpT_succ_succ, ih, scoreOf_self]
    have h1 := (dpT_le x x i (i + 1)).1
    have h2 := (dpT_le x x (i + 1) i).2
    push_cast at h1 h2 ⊢
    omega

lemma tbGo_diag (x : List (List Char)) : ∀ fuel i, 2 * i ≤ fuel → i ≤ x.length →
    tbGo x x fuel i i = ((x.take i).reverse).map (fun t => (t, t, "match")) := by
  intro fuel
  induction fuel with
  | zero =>
    intro i h hi
    have : i = 0 := by omega
    subst this
    simp [tbGo_fuel_zero]
  | succ fuel ih =>
    intro i h hi
    match i with
    | 0 => simp [tbGo]
    | i + 1 =>
      have hi' : i < x.length := by omega
      have hdiag : dpT x x (i + 1) (i + 1) =
          dpT x x i i + scoreOf (x.getD i []) (x.getD i []) := by
        rw [dpT_diag, dpT_diag, scoreOf_self]
        push_cast
        ring
      simp only [tbGo]
      rw [if_pos hdiag, matchKind_self, ih i (by omega) (by omega),
        take_succ_rev x i hi' []]
      simp

lemma tbGo_allDel (x : List (List Char)) : ∀ fuel i, i ≤ fuel → i ≤ x.length →
    tbGo x [] fuel i 0 =
      ((x.take i).reverse).map (fun t => (t, gapTok, "delete")) := by
  intro fuel
  induction fuel with
  | zero =>
    intro i h hi
    have : i = 0 := by omega
    subst this
    simp [tbGo_fuel_zero]
  | succ fuel ih =>
    intro i h hi
    match i with
    | 0 => simp [tbGo]
    | i + 1 =>
      have hi' : i < x.length := by omega
      simp only [tbGo, ite_self]
      rw [ih i (by omega) (by omega), take_succ_rev x i hi' []]
      simp

lemma tbGo_allIns (x : List (List Char)) : ∀ fuel j, j ≤ fuel → j ≤ x.length →
    tbGo [] x fuel 0 j =
      ((x.take j).reverse).map (fun t => (gapTok, t, "insert")) := by
  intro fuel
  induction fuel with
  | zero =>
    intro j h hj
    have : j = 0 := by omega
    subst this
    simp [tbGo_fuel_zero]
  | succ fuel ih =>
    intro j h hj
    match j with
    | 0 => simp [tbGo]
    | j + 1 =>
      have hj' : j < x.length := by omega
      simp only [tbGo, ite_self]
      rw [ih j (by omega) (by omega), take_succ_rev x j hj' []]
      simp

/-! ### Claims C1, C2, C3, C4, C10 -/

/-- C1 fails on the code: applying `normalize` to the string `ɡ` (U+0261)
followed by the combining acute accent U+0301 yields `g` + U+0301, which is
not NFC-normal because the character mapping U+0261 → g runs after the NFC
step; a second application NFC-composes the pair to `ǵ` (U+01F5), so
`normalize (normalize s) ≠ normalize s`. -/
theorem normalize_not_idempotent :
    normalize (normalize [ipaG, acuteMark]) ≠ normalize [ipaG, acuteMark] ∧
    normalize [ipaG, acuteMark] = ['g', acuteMark] ∧
    normalize (normalize [ipaG, acuteMark]) = [gAcute] := by
  refine ⟨by decide, by decide, by decide⟩

/-- C2: Alignment coverage — for every pair of token sequences, the
expected-side tokens of the operations that consume an expected token
(match, substitute, delete) are exactly `seq1` in order, and the actual-side
tokens of the operations that consume an actual token (match, substitute,
insert) are exactly `seq2` in order; every index of both sequences is
covered exactly once, with no gaps or overlaps. -/
theorem alignment_coverage (s1 s2 : List (List Char)) :
    (nwAlign s1 s2).filterMap expSide = s1 ∧
    (nwAlign s1 s2).filterMap actSide = s2 :=
  nwAlign_cover s1 s2

/-- C3: Empty-side alignment — aligning `x` against the empty sequence
yields one Delete per token of `x` in original order; aligning the empty
sequence against `x` yields one Insert per token of `x` in original order;
aligning two empty sequences yields the empty result. -/
theorem empty_side_alignment (x : List (List Char)) :
    nwAlign x [] = x.map (fun t => (t, gapTok, "delete")) ∧
    nwAlign [] x = x.map (fun t => (gapTok, t, "insert")) ∧
    nwAlign ([] : List (List Char)) [] = [] := by
  refine ⟨?_, ?_, rfl⟩
  · rw [nwAlign]
    simp only [List.length_nil, Nat.add_zero]
    rw [tbGo_allDel x x.length x.length le_rfl le_rfl, List.take_length,
      ← List.map_reverse, List.reverse_reverse]
  · rw [nwAlign]
    simp only [List.length_nil, Nat.zero_add]
    rw [tbGo_allIns x x.length x.length le_rfl le_rfl, List.take_length,
      ← List.map_reverse, List.reverse_reverse]

/-- C4: Identity alignment — aligning any token sequence with itself yields
only Match operations, one per token, with identical expected and actual
token at each position; in particular aligning the tokenization of `kæt`
with itself yields the three Match operations (k,k), (æ,æ), (t,t). -/
theorem identity_alignment :
    (∀ x : List (List Char), nwAlign x x = x.map (fun t => (t, t, "match"))) ∧
    align ['k', 'æ', 't'] ['k', 'æ', 't'] =
      [(['k'], ['k'], "match"), (['æ'], ['æ'], "match"), (['t'], ['t'], "match")] := by
  refine ⟨?_, by decide⟩
  intro x
  rw [nwAlign, tbGo_diag x (x.length + x.length) x.length (by omega) le_rfl,
    List.take_length, ← List.map_reverse, List.reverse_reverse]

/-- C10: in `PhonemeAligner.align(audio_ipa, text_ipa)` the expected side of
the result is drawn from the tokenization of the second argument `text_ipa`
and the actual side from the first argument `audio_ipa`; hence every Delete
operation reports a token of `text_ipa` and every Insert operation reports a
token of `audio_ipa`. -/
theorem align_sides (audioIpa textIpa : List Char) :
    (align audioIpa textIpa).filterMap expSide = extract_phonemes textIpa ∧
    (align audioIpa textIpa).filterMap actSide = extract_phonemes audioIpa ∧
    (∀ e a, (e, a, "delete") ∈ align audioIpa textIpa →
      e ∈ extract_phonemes textIpa ∧ a = gapTok) ∧
    (∀ e a, (e, a, "insert") ∈ align audioIpa textIpa →
      a ∈ extract_phonemes audioIpa ∧ e = gapTok) := by
  obtain ⟨h1, h2⟩ := nwAlign_cover (extract_phonemes textIpa) (extract_phonemes audioIpa)
  refine ⟨h1, h2, ?_, ?_⟩
  · intro e a hmem
    have hmem' := hmem
    simp only [align, nwAlign, List.mem_reverse] at hmem'
    refine ⟨?_, (tbGo_shape _ _ _ _ _ _ hmem').1 rfl⟩
    have he : e ∈ (nwAlign (extract_phonemes textIpa)
        (extract_phonemes audioIpa)).filterMap expSide :=
      List.mem_filterMap.mpr ⟨(e, a, "delete"), hmem, expSide_del e a⟩
    rwa [h1] at he
  · intro e a hmem
    have hmem' := hmem
    simp only [align, nwAlign, List.mem_reverse] at hmem'
    refine ⟨?_, (tbGo_shape _ _ _ _ _ _ hmem').2 rfl⟩
    have ha : a ∈ (nwAlign (extract_phonemes textIpa)
        (extract_phonemes audioIpa)).filterMap actSide :=
      List.mem_filterMap.mpr ⟨(e, a, "insert"), hmem, actSide_ins e a⟩
    rwa [h2] at ha

/-- C10 witness instance: for `align("a", "")` the single operation is an
insert whose actual token comes from the audio argument and whose expected
side is the gap placeholder. -/
theorem align_sides_witness :
    (['a'] : List Char) ∈ extract_phonemes ['a'] ∧ gapTok = gapTok :=
  (align_sides ['a'] []).2.2.2 gapTok ['a'] (by decide)

/-! ### Claim C5: the similarity tier for diacritic variants -/

/-- Characters the tokenizer attaches to a base symbol other than stress and
length marks: the combining-mark block U+0300..U+0362 enumerated by
`COMBINING_MARKS`, together with the modifier letters of `MODIFIER_LETTERS`
that are not length marks (aspiration, labialization, palatalization,
velarization, pharyngealization, nasal release, lateral release).  This is
the claim's notion of an attached diacritic. -/
def isAttachedDiacritic (c : Char) : Bool :=
  (0x300 ≤ c.toNat && c.toNat ≤ 0x362) || c == Char.ofNat 0x2B0 ||
    c == Char.ofNat 0x2B7 || c == Char.ofNat 0x2B2 || c == Char.ofNat 0x2E0 ||
    c == Char.ofNat 0x2E4 || c == Char.ofNat 0x207F || c == Char.ofNat 0x2E1

lemma diacritic_not_length {c : Char} (h : isAttachedDiacritic c = true) :
    (c == ':' || c == lenMark) = false := by
  rw [Bool.or_eq_false_iff]
  constructor
  · rw [beq_eq_false_iff_ne]
    intro heq
    subst heq
    exact absurd h (by decide)
  · rw [beq_eq_false_iff_ne]
    intro heq
    subst heq
    exact absurd h (by decide)

lemma pairs_no_diacritic : ∀ pr ∈ similarPairs,
    (∀ c ∈ pr.1, isAttachedDiacritic c = false) ∧
    (∀ c ∈ pr.2, isAttachedDiacritic c = false) := by decide

lemma lstripStress_of_head (b : Char) (m : List Char)
    (hb : isStressChar b = false) : lstripStress (b :: m) = b :: m := by
  unfold lstripStress
  rw [List.dropWhile_cons, if_neg]
  simp only [isStressChar] at hb
  simp [hb]

lemma rstripLen_diacritic (b : Char) (m : List Char) (hm : m ≠ [])
    (h : ∀ c ∈ m, isAttachedDiacritic c = true) :
    rstripLen (b :: m) = b :: m := by
  unfold rstripLen
  have hrev : (b :: m).reverse = m.reverse ++ [b] := by simp
  rw [hrev]
  rcases hr : m.reverse with _ | ⟨d, r⟩
  · exact absurd (by simpa using congrArg List.reverse hr) hm
  · have hd : d ∈ m := by
      rw [← List.mem_reverse, hr]
      exact List.mem_cons_self d r
    have hq := diacritic_not_length (h d hd)
    rw [List.cons_append, List.dropWhile_cons, if_neg (by simp [hq]),
      ← List.cons_append, ← hr, ← hrev, List.reverse_reverse]

lemma length_dropWhile_le (p : Char → Bool) (l : List Char) :
    (l.dropWhile p).length ≤ l.length := by
  induction l with
  | nil => simp
  | cons a l ih =>
    rw [List.dropWhile_cons]
    split
    · simp only [List.length_cons]
      omega
    · simp

lemma pairHit_false_left {c1 c2 : List Char} {pr : List Char × List Char}
    (h1 : c1 ≠ pr.1) (h2 : c1 ≠ pr.2) : pairHit c1 c2 pr = false := by
  simp [pairHit, h1, h2]

lemma pairHit_false_right {c1 c2 : List Char} {pr : List Char × List Char}
    (h1 : c2 ≠ pr.1) (h2 : c2 ≠ pr.2) : pairHit c1 c2 pr = false := by
  simp [pairHit, h1, h2]

lemma token_ne_component (b d : Char) (r : List Char)
    (pr : List Char × List Char) (hpr : pr ∈ similarPairs)
    (hd : isAttachedDiacritic d = true) :
    b :: d :: r ≠ pr.1 ∧ b :: d :: r ≠ pr.2 := by
  have hcomp := pairs_no_diacritic pr hpr
  constructor
  · intro he
    have hmem : d ∈ pr.1 := by
      rw [← he]
      exact List.mem_cons_of_mem b (List.mem_cons_self d r)
    have hf := hcomp.1 d hmem
    rw [hf] at hd
    exact Bool.noConfusion hd
  · intro he
    have hmem : d ∈ pr.2 := by
      rw [← he]
      exact List.mem_cons_of_mem b (List.mem_cons_self d r)
    have hf := hcomp.2 d hmem
    rw [hf] at hd
    exact Bool.noConfusion hd

/-- C5 counterexample: the tokens `t` + dental diacritic U+032A and `t` have
the identical base symbol and differ only in an attached diacritic, yet
`phoneme_similarity` scores them 0.0, not 0.7 — the code has no 0.7 tier. -/
theorem diacritic_similarity_counterexample :
    phoneme_similarity ['t', dentalMark] ['t'] = 0 ∧
    phoneme_similarity ['t', dentalMark] ['t'] ≠ mkRat 7 10 := by
  constructor <;> decide

/-- C5 amended: for every pair of tokens with the same non-stress base
symbol whose remainders consist only of attached diacritics (no stress or
length marks) and differ, `phoneme_similarity` returns 0.0: such pairs fall
through the identity, stress, length and confusion-pair tiers to the default
tier. -/
theorem diacritic_variants_score_zero (b : Char) (m1 m2 : List Char)
    (hb : isStressChar b = false)
    (h1 : ∀ c ∈ m1, isAttachedDiacritic c = true)
    (h2 : ∀ c ∈ m2, isAttachedDiacritic c = true)
    (hne : m1 ≠ m2) :
    phoneme_similarity (b :: m1) (b :: m2) = 0 := by
  have hpne : (b :: m1) ≠ (b :: m2) := by
    intro h
    apply hne
    injection h
  unfold phoneme_similarity
  rw [if_neg hpne]
  simp only [lstripStress_of_head b m1 hb, lstripStress_of_head b m2 hb]
  rw [if_neg hpne]
  rcases m1 with _ | ⟨d1, r1⟩
  · rcases m2 with _ | ⟨d2, r2⟩
    · exact absurd rfl hne
    · rw [rstripLen_diacritic b (d2 :: r2) (by simp) h2]
      have hlen : (rstripLen [b]).length ≤ 1 := by
        unfold rstripLen
        simpa using length_dropWhile_le
          (fun c => c == ':' || c == lenMark) [b].reverse
      have hcne : rstripLen [b] ≠ b :: d2 :: r2 := by
        intro h
        have := congrArg List.length h
        simp at this
        omega
      rw [if_neg hcne]
      have hany : similarPairs.any
          (pairHit (rstripLen [b]) (b :: d2 :: r2)) = false := by
        rw [List.any_eq_false]
        intro pr hpr
        have hne2 := token_ne_component b d2 r2 pr hpr
          (h2 d2 (List.mem_cons_self d2 r2))
        simp [pairHit_false_right hne2.1 hne2.2]
      rw [if_neg (by simp [hany])]
  · rcases m2 with _ | ⟨d2, r2⟩
    · rw [rstripLen_diacritic b (d1 :: r1) (by simp) h1]
      have hlen : (rstripLen [b]).length ≤ 1 := by
        unfold rstripLen
        simpa using length_dropWhile_le
          (fun c => c == ':' || c == lenMark) [b].reverse
      have hcne : (b :: d1 :: r1) ≠ rstripLen [b] := by
        intro h
        have := congrArg List.length h
        simp at this
        omega
      rw [if_neg hcne]
      have hany : similarPairs.any
          (pairHit (b :: d1 :: r1) (rstripLen [b])) = false := by
        rw [List.any_eq_false]
        intro pr hpr
        have hne1 := token_ne_component b d1 r1 pr hpr
          (h1 d1 (List.mem_cons_self d1 r1))
        simp [pairHit_false_left hne1.1 hne1.2]
      rw [if_neg (by simp [hany])]
    · rw [rstripLen_diacritic b (d1 :: r1) (by simp) h1,
        rstripLen_diacritic b (d2 :: r2) (by simp) h2]
      have hcne : (b :: d1 :: r1) ≠ (b :: d2 :: r2) := hpne
      rw [if_neg hcne]
      have hany : similarPairs.any
          (pairHit (b :: d1 :: r1) (b :: d2 :: r2)) = false := by
        rw [List.any_eq_false]
        intro pr hpr
        have hne1 := token_ne_component b d1 r1 pr hpr
          (h1 d1 (List.mem_cons_self d1 r1))
        simp [pairHit_false_left hne1.1 hne1.2]
      rw [if_neg (by simp [hany])]

/-- C5 amended, witness instance: the dental variant of `t` against plain
`t` scores 0.0. -/
theorem diacritic_variants_score_zero_witness :
    isStressChar 't' = false ∧ isAttachedDiacritic dentalMark = true ∧
    phoneme_similarity ('t' :: [dentalMark]) ('t' :: []) = 0 :=
  ⟨by decide, by decide,
    diacritic_variants_score_zero 't' [dentalMark] [] (by decide) (by decide)
      (by decide) (by decide)⟩

end IpaEngine
